import Mathlib

/-!
# Verification of the ergothic core (accumulator, measure registry, driver)

Shallow embedding of the Rust sources under `src/ergothic/src/`:

* `accumulate.rs` — the online statistical accumulator `Acc` (namespace
  `Accumulate` below);
* `measure.rs`    — the measure collection `Measures` together with the
  (older, duplicated) copy of `Acc` that the `Measure` struct actually owns
  (namespace `MeasureRs` below);
* `startup.rs`    — flush-interval construction in `construct_parameters`;
* `simulation.rs` — the driver loop `run`.

## Number model

The Rust code computes in IEEE `f64`.  The fragment of `f64` the accumulator
code exercises is: exact arithmetic on ordinary values, plus the quiet NaN
produced by `0.0/0.0` and propagated through `+`, `-`, `*`, `/`, `powi` and
`sqrt`.  We model it with `F`: a rational payload (exact idealization of
ordinary doubles, adequate for properties stated "up to floating tolerance")
plus a `nan` element with IEEE propagation rules.  Division of a *nonzero*
value by zero produces a signed infinity in IEEE; no operation modelled here
reaches that corner (every division performed by the code is by a count that
is either ≥ 1 or zero alongside a zero or NaN numerator), and `F` collapses
it to `nan`.  Square roots are irrational in general, so `uncertainty`
returns a value of `RF` — reals plus NaN — via `RF.sqrt`, which mirrors IEEE
`sqrt` (NaN on NaN and on negative arguments).
-/

inductive F where
  | nan : F
  | fin : ℚ → F
deriving DecidableEq

namespace F

def isNaN : F → Bool
  | nan => true
  | fin _ => false

def add : F → F → F
  | fin a, fin b => fin (a + b)
  | _, _ => nan

def sub : F → F → F
  | fin a, fin b => fin (a - b)
  | _, _ => nan

def mul : F → F → F
  | fin a, fin b => fin (a * b)
  | _, _ => nan

/-- IEEE division restricted to the modelled fragment: `0/0` (and any
division with a NaN operand) is NaN; nonzero-by-zero would be an infinity
in IEEE but is unreachable in the code paths modelled here and collapses
to `nan`. -/
def div : F → F → F
  | fin a, fin b => if b = 0 then nan else fin (a / b)
  | _, _ => nan

/-- Rust `f64::powi`.  Only used with exponent 2 by the source. -/
def powi : F → ℕ → F
  | _, 0 => fin 1
  | fin a, n + 1 => fin (a ^ (n + 1))
  | nan, _ + 1 => nan

instance : Add F := ⟨add⟩
instance : Sub F := ⟨sub⟩
instance : Mul F := ⟨mul⟩
instance : Div F := ⟨div⟩

end F

/-- Reals extended with a NaN element: the codomain of `sqrt`-producing
operations. -/
inductive RF where
  | nan : RF
  | fin : ℝ → RF

def F.toRF : F → RF
  | F.nan => RF.nan
  | F.fin q => RF.fin (q : ℝ)

/-- IEEE `sqrt`: NaN on NaN and on negative arguments, the real square root
otherwise. -/
noncomputable def RF.sqrt : RF → RF
  | RF.nan => RF.nan
  | RF.fin x => if x < 0 then RF.nan else RF.fin (Real.sqrt x)

/-!
## `accumulate.rs` — the accumulator `Acc`

Direct transcription of `src/ergothic/src/accumulate.rs`.  This is the
current version of the accumulator; its `consume` drops NaN samples.
-/

namespace Accumulate

structure Acc where
  count : F
  mean : F
  mean2 : F
deriving DecidableEq

/-- `Acc::new()` (accumulate.rs lines 19–25). -/
def Acc.new : Acc := { mean := F.fin 0, count := F.fin 0, mean2 := F.fin 0 }

/-- `Acc::value()` (accumulate.rs lines 29–31). -/
def Acc.value (a : Acc) : F := a.mean

/-- `Acc::uncertainty()` (accumulate.rs lines 38–40):
`((self.mean2 - self.mean.powi(2)) / self.count).sqrt()`. -/
noncomputable def Acc.uncertainty (a : Acc) : RF :=
  (((a.mean2 - a.mean.powi 2) / a.count).toRF).sqrt

/-- `Acc::num_of_samples()` (accumulate.rs lines 44–46). -/
def Acc.num_of_samples (a : Acc) : F := a.count

/-- `Acc::consume(value)` (accumulate.rs lines 56–63).  NaN samples are
dropped before any state is touched. -/
def Acc.consume (a : Acc) (value : F) : Acc :=
  if value.isNaN then a
  else
    let count := a.count + F.fin 1
    let mean := a.mean + (value - a.mean) / count
    let mean2 := a.mean2 + (value.powi 2 - a.mean2) / count
    { count := count, mean := mean, mean2 := mean2 }

/-- `Acc::merge(other)` (accumulate.rs lines 68–77), where `self.count` is
only overwritten by `total_count` at the very end, so every earlier read of
`self.count` sees the original value. -/
def Acc.merge (a other : Acc) : Acc :=
  let total_count := a.count + other.count
  let self_mean1 := a.mean - a.mean * (other.count / total_count)
  let other_mean1 := other.mean - other.mean * (a.count / total_count)
  let self_mean2 := self_mean1 + other_mean1
  let self_mean21 := a.mean2 - a.mean2 * (other.count / total_count)
  let other_mean21 := other.mean2 - other.mean2 * (a.count / total_count)
  let self_mean22 := self_mean21 + other_mean21
  { count := total_count, mean := self_mean2, mean2 := self_mean22 }

/-- Consuming a list of samples in order (left fold of `consume`). -/
def Acc.consumeList (a : Acc) (vs : List F) : Acc :=
  vs.foldl Acc.consume a

/-- Building an accumulator from a list of ordinary (finite) sample values. -/
def fromListQ (vs : List ℚ) : Acc :=
  Acc.consumeList Acc.new (vs.map F.fin)

/-- Accumulator states reachable from `Acc.new` by arbitrary `consume` and
`merge` operations (a `reset` produces `Acc.new` again, which the base case
already covers).  This is the reachable-state set named by the invariant
claim about empty accumulators. -/
inductive ReachableClaim : Acc → Prop where
  | new : ReachableClaim Acc.new
  | consume (a : Acc) (v : F) : ReachableClaim a → ReachableClaim (a.consume v)
  | merge (a b : Acc) : ReachableClaim a → ReachableClaim b →
      ReachableClaim (a.merge b)

/-- As `ReachableClaim`, but a merge never combines two empty (count-zero)
accumulators — the amended reachable-state set under which the count-zero
invariant actually holds (merging two empty accumulators computes `0/0` and
poisons the mean with NaN while the count stays 0). -/
inductive ReachableNE : Acc → Prop where
  | new : ReachableNE Acc.new
  | consume (a : Acc) (v : F) : ReachableNE a → ReachableNE (a.consume v)
  | merge (a b : Acc) : ReachableNE a → ReachableNE b →
      ¬(a.count = F.fin 0 ∧ b.count = F.fin 0) → ReachableNE (a.merge b)

end Accumulate

/-!
## `measure.rs` — measures and their collection

Direct transcription of `src/ergothic/src/measure.rs`.  That file carries
its *own* copy of `Acc` (an older revision than `accumulate.rs`): its
`consume` has **no** NaN guard, and it lacks `num_of_samples`.  The
`Measure` struct owns this copy, so the simulation pipeline's accumulators
are the guardless ones.  Both copies are embedded; this namespace is the
`measure.rs` one.
-/

namespace MeasureRs

structure Acc where
  count : F
  mean : F
  mean2 : F
deriving DecidableEq

/-- `Acc::new()` (measure.rs lines 19–25). -/
def Acc.new : Acc := { mean := F.fin 0, count := F.fin 0, mean2 := F.fin 0 }

/-- `Acc::value()` (measure.rs lines 29–31). -/
def Acc.value (a : Acc) : F := a.mean

/-- `Acc::uncertainty()` (measure.rs lines 38–40). -/
noncomputable def Acc.uncertainty (a : Acc) : RF :=
  (((a.mean2 - a.mean.powi 2) / a.count).toRF).sqrt

/-- `Acc::consume(value)` (measure.rs lines 50–54).  Unlike the
`accumulate.rs` revision, there is **no** `is_nan` early return here: the
update runs unconditionally. -/
def Acc.consume (a : Acc) (value : F) : Acc :=
  let count := a.count + F.fin 1
  let mean := a.mean + (value - a.mean) / count
  let mean2 := a.mean2 + (value.powi 2 - a.mean2) / count
  { count := count, mean := mean, mean2 := mean2 }

/-- `Acc::merge(other)` (measure.rs lines 59–68). -/
def Acc.merge (a other : Acc) : Acc :=
  let total_count := a.count + other.count
  let self_mean1 := a.mean - a.mean * (other.count / total_count)
  let other_mean1 := other.mean - other.mean * (a.count / total_count)
  let self_mean2 := self_mean1 + other_mean1
  let self_mean21 := a.mean2 - a.mean2 * (other.count / total_count)
  let other_mean21 := other.mean2 - other.mean2 * (a.count / total_count)
  let self_mean22 := self_mean21 + other_mean21
  { count := total_count, mean := self_mean2, mean2 := self_mean22 }

/-- `Measure` (measure.rs lines 74–83): a named observable owning an
accumulator (the measure.rs `Acc`). -/
structure Measure where
  name : String
  acc : Acc
deriving DecidableEq

/-- `MeasureIdx` (measure.rs lines 97–98): a thin wrapper around a
positional index. -/
structure MeasureIdx where
  val : ℕ
deriving DecidableEq

/-- `Measures` (measure.rs lines 88–91): the collection of measures, a
vector modelled as a list. -/
structure Measures where
  measures : List Measure
deriving DecidableEq

/-- `Measures::new()` (measure.rs lines 102–106). -/
def Measures.new : Measures := { measures := [] }

/-- `Measures::slice()` (measure.rs lines 109–111). -/
def Measures.slice (ms : Measures) : List Measure := ms.measures

/-- `Measures::register(name)` (measure.rs lines 115–121): pushes a new
measure with a fresh accumulator and returns the wrapped index
`len - 1` of the pushed element.  There is no duplicate-name check. -/
def Measures.register (ms : Measures) (name : String) : Measures × MeasureIdx :=
  ({ measures := ms.measures ++ [{ name := name, acc := Acc.new }] },
   { val := ms.measures.length })

/-- `Measures::name(idx)` (measure.rs lines 124–126): `&self.measures[idx.0].name`.
Rust vector indexing panics when the index is out of bounds; the panic is
modelled as `none`. -/
def Measures.name (ms : Measures) (idx : MeasureIdx) : Option String :=
  (ms.measures[idx.val]?).map Measure.name

/-- `Measures::acc(idx)` (measure.rs lines 130–132), panic modelled as
`none`. -/
def Measures.acc (ms : Measures) (idx : MeasureIdx) : Option Acc :=
  (ms.measures[idx.val]?).map Measure.acc

/-- `Measures::acc_mut(idx)` (measure.rs lines 136–138): a mutable borrow of
the accumulator, modelled as applying an update function `f` to the indexed
accumulator; the out-of-bounds panic is modelled as `none`. -/
def Measures.acc_mut (ms : Measures) (idx : MeasureIdx) (f : Acc → Acc) :
    Option Measures :=
  match ms.measures[idx.val]? with
  | some m =>
      some { measures := ms.measures.set idx.val { m with acc := f m.acc } }
  | none => none

/-- `Measures::reset_accs()` (measure.rs lines 142–146): replaces every
accumulator with a fresh empty one, keeping names.  The driver in
`simulation.rs` invokes this operation under the name `Measures::reset`
(that revision of the collection is absent from the sources; per the spec,
§4.2, its `reset()` "replaces every Accumulator with a fresh empty one",
which is exactly this function). -/
def Measures.reset_accs (ms : Measures) : Measures :=
  { measures := ms.measures.map (fun m => { m with acc := Acc.new }) }

end MeasureRs

/-!
## `startup.rs` — flush-interval construction

`construct_parameters` (startup.rs lines 50–112) validates the
randomization fraction, computes

* `flush_interval_min = max(1, round(T·(1−r)))`
* `flush_interval_max = round(T·(1+r))`

with `f64::round` (round half away from zero; the arguments are
non-negative here, so this is `⌊q + 1/2⌋`), and draws the flush interval
once, uniformly from `[min, max]` inclusive.  The exporter construction and
the mongo/debug branches perform I/O and are outside the modelled fragment;
the randomness of the single draw is modelled by an entropy argument
`u : ℕ`, mapped into the support exactly as a uniform inclusive sampler
would (every value of the support is realized by some `u`, and every `u`
lands in the support).  Panics (`flush_interval_randomization` outside
`[0,1)`; `Uniform::new_inclusive` with an empty range) are modelled as
`none`.
-/

namespace Startup

/-- `f64::round` for the non-negative arguments occurring here, landing in
`ℕ` as the `as u64` cast does. -/
def roundToNat (q : ℚ) : ℕ := (⌊q + 1 / 2⌋).toNat

/-- `flush_interval_min` (startup.rs lines 91–93). -/
def flush_interval_min (T : ℕ) (r : ℚ) : ℕ :=
  max 1 (roundToNat ((T : ℚ) * (1 - r)))

/-- `flush_interval_max` (startup.rs lines 94–96). -/
def flush_interval_max (T : ℕ) (r : ℚ) : ℕ :=
  roundToNat ((T : ℚ) * (1 + r))

/-- `Uniform::<u64>::new_inclusive(lo, hi).sample(rng)` for `lo ≤ hi`: the
sampled value, as a function of the rng entropy `u`.  Every sample lies in
`[lo, hi]`, and every point of `[lo, hi]` is `sample lo hi u` for some `u`. -/
def sampleUniformInclusive (lo hi u : ℕ) : ℕ :=
  lo + u % (hi + 1 - lo)

/-- The flush-interval part of `construct_parameters` (startup.rs lines
86–101): validation panic and empty-range panic modelled as `none`. -/
def construct_flush_interval (T : ℕ) (r : ℚ) (u : ℕ) : Option ℕ :=
  if r < 0 ∨ 1 ≤ r then none
  else if flush_interval_max T r < flush_interval_min T r then none
  else some (sampleUniformInclusive (flush_interval_min T r)
              (flush_interval_max T r) u)

/-- Per the spec's words ("each cycle draws a uniformly random interval in
[T·(1−r), T·(1+r)]"; "recompute/resample the next flush interval afresh"):
the flush interval the k-th export cycle would use under per-cycle
resampling, with `s` the per-cycle entropy stream.  This is the spec-side
definition for the refinement comparison; the code (`construct_parameters`
+ `run`) instead draws once at startup and never resamples. -/
def specResampledInterval (T : ℕ) (r : ℚ) (s : ℕ → ℕ) (k : ℕ) : ℕ :=
  sampleUniformInclusive (flush_interval_min T r) (flush_interval_max T r) (s k)

/-- A concrete entropy stream: the startup draw is 2, the next draw is 7.
With base interval 10 and randomization 1/2 (support [5, 15], width 11)
these map to intervals 7 and 12 respectively. -/
def twoDrawStream : ℕ → ℕ := fun k => if k = 0 then 2 else 7

end Startup

/-!
## `simulation.rs` — the driver loop

`Parameters` (simulation.rs lines 34–51) minus the boxed exporter (the
exporter is an external collaborator; each cycle's export outcome enters
the model as an input), and `run` (lines 59–102) decomposed into:

* the measurement part of an iteration (lines 70–73): the user-supplied
  `measure_fn` updating the measures — abstracted as a function input;
* `exportPhase` — the `match parameters.exporter.export(..)` block
  (lines 79–92): on `Ok` reset the error counter and the accumulators, on
  `Err` increment the counter and keep the accumulators;
* `panicsAt` — the max-errors check (lines 93–99), `panic!` when the
  counter has reached the configured maximum;
* `loopCycle` — one full iteration of the `loop`, with this cycle's
  wall-clock `elapsed` seconds since the last export attempt and the
  exporter outcome as inputs; a `panic!` is modelled as `none`.  Each cycle
  also reports the flush-interval threshold it compared `elapsed` against
  (when an export was attempted), so that runs expose the interval actually
  used per cycle.
-/

namespace Simulation

structure Parameters where
  name : String
  measures : MeasureRs.Measures
  flush_interval : ℕ
  max_export_errors_in_row : Option ℕ
deriving DecidableEq

structure SimState where
  measures : MeasureRs.Measures
  export_errors_in_row : ℕ
deriving DecidableEq

/-- Per-cycle inputs: wall-clock seconds elapsed since the last export
attempt at the check on line 75, and the exporter's outcome (consulted only
when the timer fires). -/
structure CycleInput where
  elapsed : ℕ
  exportOk : Bool
deriving DecidableEq

/-- Lines 79–92: the `match` on `exporter.export(&measures)`. -/
def exportPhase (errs : ℕ) (ms : MeasureRs.Measures) (exportOk : Bool) :
    ℕ × MeasureRs.Measures :=
  if exportOk then (0, ms.reset_accs)
  else (errs + 1, ms)

/-- Lines 93–99: `panic!` when a maximum is configured and
`export_errors_in_row >= max`. -/
def panicsAt (maxE : Option ℕ) (errs : ℕ) : Bool :=
  match maxE with
  | some m => m ≤ errs
  | none => false

/-- One iteration of the `loop` (lines 67–101).  Returns the next state and
the flush-interval threshold used, when an export was attempted; `none`
models the `panic!`. -/
def loopCycle (flushInterval : ℕ) (maxE : Option ℕ)
    (measureFn : MeasureRs.Measures → MeasureRs.Measures)
    (st : SimState) (inp : CycleInput) : Option (SimState × Option ℕ) :=
  let ms1 := measureFn st.measures
  if flushInterval ≤ inp.elapsed then
    let p := exportPhase st.export_errors_in_row ms1 inp.exportOk
    if panicsAt maxE p.1 then none
    else some ({ measures := p.2, export_errors_in_row := p.1 },
               some flushInterval)
  else
    some ({ measures := ms1, export_errors_in_row := st.export_errors_in_row },
          none)

/-- Running the loop over a list of cycle inputs, collecting the
flush-interval thresholds of the export cycles.  `none` models a `panic!`
in some cycle. -/
def runLoop (flushInterval : ℕ) (maxE : Option ℕ)
    (measureFn : MeasureRs.Measures → MeasureRs.Measures) :
    SimState → List CycleInput → Option (SimState × List ℕ)
  | st, [] => some (st, [])
  | st, inp :: rest =>
    match loopCycle flushInterval maxE measureFn st inp with
    | none => none
    | some (st1, ev) =>
      (runLoop flushInterval maxE measureFn st1 rest).map
        (fun q => (q.1, ev.toList ++ q.2))

end Simulation

/-- Sum of squares of a list of rationals. -/
def sumSq (vs : List ℚ) : ℚ := (vs.map (fun v => v ^ 2)).sum

/-!
## Arithmetic lemmas for the number model
-/

namespace F

theorem fin_add_fin (a b : ℚ) : (fin a) + (fin b) = fin (a + b) := rfl
theorem fin_sub_fin (a b : ℚ) : (fin a) - (fin b) = fin (a - b) := rfl
theorem fin_mul_fin (a b : ℚ) : (fin a) * (fin b) = fin (a * b) := rfl

theorem fin_div_fin (a b : ℚ) (hb : b ≠ 0) :
    (fin a) / (fin b) = fin (a / b) := by
  show div (fin a) (fin b) = fin (a / b)
  simp [div, hb]

theorem fin_div_zero (a : ℚ) : (fin a) / (fin 0) = nan := by
  show div (fin a) (fin 0) = nan
  simp [div]

theorem nan_sub (b : F) : nan - b = nan := by cases b <;> rfl
theorem sub_nan (a : F) : a - nan = nan := by cases a <;> rfl
theorem nan_add (b : F) : nan + b = nan := by cases b <;> rfl
theorem add_nan (a : F) : a + nan = nan := by cases a <;> rfl
theorem nan_mul (b : F) : nan * b = nan := by cases b <;> rfl
theorem mul_nan (a : F) : a * nan = nan := by cases a <;> rfl
theorem nan_div (b : F) : nan / b = nan := by cases b <;> rfl
theorem div_nan (a : F) : a / nan = nan := by cases a <;> rfl

end F

/-!
## Closed forms for the accumulator state

`consumeList` and `merge` on finite-valued accumulators with natural
counts reduce to sums: these are the workhorse lemmas behind the
mean/uncertainty and merge-algebra claims.
-/

namespace Accumulate

theorem consume_fin (c m m2 v : ℚ) (hc : (c : ℚ) + 1 ≠ 0) :
    Acc.consume { count := F.fin c, mean := F.fin m, mean2 := F.fin m2 }
      (F.fin v) =
    { count := F.fin (c + 1), mean := F.fin (m + (v - m) / (c + 1)),
      mean2 := F.fin (m2 + (v ^ 2 - m2) / (c + 1)) } := by
  simp only [Acc.consume, F.isNaN, Bool.false_eq_true, if_false]
  simp only [F.fin_add_fin, F.fin_sub_fin, F.powi, F.fin_div_fin _ _ hc]

theorem consumeList_fin (vs : List ℚ) :
    ∀ (c : ℕ) (m m2 : ℚ), 0 < c + vs.length →
    Acc.consumeList
      { count := F.fin c, mean := F.fin m, mean2 := F.fin m2 }
      (vs.map F.fin) =
    { count := F.fin (c + vs.length),
      mean := F.fin ((c * m + vs.sum) / (c + vs.length)),
      mean2 := F.fin ((c * m2 + sumSq vs) / (c + vs.length)) } := by
  induction vs with
  | nil =>
    intro c m m2 hpos
    have hc : (c : ℚ) ≠ 0 := by
      have hc0 : c ≠ 0 := by simpa using hpos.ne'
      exact_mod_cast hc0
    simp only [Acc.consumeList, List.map_nil, List.foldl_nil, List.length_nil,
      List.sum_nil, sumSq, Nat.cast_zero, add_zero]
    congr 1
    · congr 1; field_simp
    · congr 1; field_simp
  | cons v rest ih =>
    intro c m m2 _
    have hc1 : (c : ℚ) + 1 ≠ 0 := by positivity
    have hrec := ih (c + 1) (m + (v - m) / (c + 1)) (m2 + (v ^ 2 - m2) / (c + 1))
      (by omega)
    push_cast at hrec
    simp only [Acc.consumeList, List.map_cons, List.foldl_cons] at hrec ⊢
    rw [consume_fin (c : ℚ) m m2 v hc1, hrec]
    have hd1 : ((c : ℚ) + 1) + (rest.length : ℚ) ≠ 0 := by positivity
    have hd2 : (c : ℚ) + ((rest.length : ℚ) + 1) ≠ 0 := by positivity
    congr 1
    · congr 1; push_cast [List.length_cons]; ring
    · congr 1
      simp only [List.sum_cons, List.length_cons]
      push_cast
      field_simp
      ring
    · congr 1
      simp only [sumSq, List.map_cons, List.sum_cons, List.length_cons]
      push_cast
      field_simp
      ring

theorem fromListQ_eq (vs : List ℚ) (h : vs ≠ []) :
    fromListQ vs =
    { count := F.fin vs.length,
      mean := F.fin (vs.sum / vs.length),
      mean2 := F.fin (sumSq vs / vs.length) } := by
  have hlen : 0 < vs.length := List.length_pos.mpr h
  have := consumeList_fin vs 0 0 0 (by omega)
  simpa [fromListQ, Acc.new] using this

theorem merge_fin (c1 m1 q1 c2 m2 q2 : ℚ) (ht : c1 + c2 ≠ 0) :
    Acc.merge { count := F.fin c1, mean := F.fin m1, mean2 := F.fin q1 }
      { count := F.fin c2, mean := F.fin m2, mean2 := F.fin q2 } =
    { count := F.fin (c1 + c2),
      mean := F.fin ((c1 * m1 + c2 * m2) / (c1 + c2)),
      mean2 := F.fin ((c1 * q1 + c2 * q2) / (c1 + c2)) } := by
  simp only [Acc.merge, F.fin_add_fin, F.fin_div_fin _ _ ht, F.fin_mul_fin,
    F.fin_sub_fin]
  congr 1 <;> · congr 1; field_simp; ring

/-- Merging two replay-built accumulators is replaying the concatenation,
as long as the two are not both empty. -/
theorem merge_fromListQ (xs ys : List ℚ) (h : xs ≠ [] ∨ ys ≠ []) :
    Acc.merge (fromListQ xs) (fromListQ ys) = fromListQ (xs ++ ys) := by
  by_cases hx : xs = []
  · subst hx
    have hy : ys ≠ [] := h.resolve_left (fun hc => hc rfl)
    have hyl : (ys.length : ℚ) ≠ 0 := by
      have hpos : 0 < ys.length := List.length_pos.mpr hy
      exact_mod_cast hpos.ne'
    have hn : (0 : ℚ) + (ys.length : ℚ) ≠ 0 := by simpa using hyl
    rw [fromListQ_eq ys hy, List.nil_append, fromListQ_eq ys hy]
    show Acc.merge { count := F.fin 0, mean := F.fin 0, mean2 := F.fin 0 } _ = _
    rw [merge_fin 0 0 0 _ _ _ hn]
    congr 1 <;> congr 1 <;> field_simp
  · by_cases hy : ys = []
    · subst hy
      have hxl : (xs.length : ℚ) ≠ 0 := by
        have hpos : 0 < xs.length := List.length_pos.mpr hx
        exact_mod_cast hpos.ne'
      have hn : (xs.length : ℚ) + (0 : ℚ) ≠ 0 := by simpa using hxl
      rw [fromListQ_eq xs hx, List.append_nil, fromListQ_eq xs hx]
      show Acc.merge _ { count := F.fin 0, mean := F.fin 0, mean2 := F.fin 0 } = _
      rw [merge_fin _ _ _ 0 0 0 hn]
      congr 1 <;> congr 1 <;> field_simp
    · have hxl : (0 : ℚ) < xs.length := by
        exact_mod_cast List.length_pos.mpr hx
      have hyl : (0 : ℚ) < ys.length := by
        exact_mod_cast List.length_pos.mpr hy
      have ht : (xs.length : ℚ) + (ys.length : ℚ) ≠ 0 := by positivity
      rw [fromListQ_eq xs hx, fromListQ_eq ys hy, merge_fin _ _ _ _ _ _ ht,
        fromListQ_eq (xs ++ ys) (by simp [hx])]
      have hsum : (xs ++ ys).sum = xs.sum + ys.sum := List.sum_append
      have hss : sumSq (xs ++ ys) = sumSq xs + sumSq ys := by
        simp [sumSq, List.map_append, List.sum_append]
      congr 1
      · congr 1; push_cast [List.length_append]; ring
      · congr 1
        rw [hsum]
        push_cast [List.length_append]
        field_simp
        try ring
      · congr 1
        rw [hss]
        push_cast [List.length_append]
        field_simp
        try ring

theorem sumSq_nonneg (vs : List ℚ) : 0 ≤ sumSq vs := by
  apply List.sum_nonneg
  intro x hx
  rcases List.mem_map.mp hx with ⟨v, _, rfl⟩
  positivity

/-- Cauchy–Schwarz for lists: `(Σ v)² ≤ n · Σ v²`.  This makes the
uncertainty radicand non-negative in exact arithmetic. -/
theorem sq_sum_le_length_mul_sumSq (vs : List ℚ) :
    vs.sum ^ 2 ≤ (vs.length : ℚ) * sumSq vs := by
  induction vs with
  | nil => simp [sumSq]
  | cons v rest ih =>
    rcases Nat.eq_zero_or_pos rest.length with h0 | hpos
    · have hr : rest = [] := List.length_eq_zero.mp h0
      subst hr
      simp [sumSq]
    · have h1 : (1 : ℚ) ≤ (rest.length : ℚ) := by exact_mod_cast hpos
      have hq : 0 ≤ sumSq rest := sumSq_nonneg rest
      have hA : 0 ≤ ((rest.length : ℚ) * v - rest.sum) ^ 2 := sq_nonneg _
      have hW : 0 ≤ (rest.length : ℚ) *
          ((rest.length : ℚ) * v ^ 2 + sumSq rest - 2 * v * rest.sum) := by
        nlinarith [ih]
      have hW2 : 0 ≤ (rest.length : ℚ) * v ^ 2 + sumSq rest - 2 * v * rest.sum := by
        nlinarith [hW, h1]
      have hss : sumSq (v :: rest) = v ^ 2 + sumSq rest := by
        simp [sumSq]
      simp only [List.sum_cons, List.length_cons, hss]
      push_cast
      nlinarith [ih, hW2, hq]

/-- The uncertainty radicand `mean2 − mean²`, for replay statistics, is a
non-negative rational. -/
theorem variance_nonneg (vs : List ℚ) (h : vs ≠ []) :
    0 ≤ sumSq vs / vs.length - (vs.sum / vs.length) ^ 2 := by
  have hn : (0 : ℚ) < vs.length := by exact_mod_cast List.length_pos.mpr h
  have key := sq_sum_le_length_mul_sumSq vs
  have heq : sumSq vs / vs.length - (vs.sum / vs.length) ^ 2 =
      ((vs.length : ℚ) * sumSq vs - vs.sum ^ 2) / (vs.length : ℚ) ^ 2 := by
    field_simp
    ring
  rw [heq]
  apply div_nonneg (by linarith) (by positivity)

end Accumulate

/-!
## Reachability invariant for the accumulator
-/

namespace Accumulate

theorem consume_nan_eq (a : Acc) : a.consume F.nan = a := by
  simp [Acc.consume, F.isNaN]

theorem consume_count (a : Acc) (x : ℚ) :
    (a.consume (F.fin x)).count = a.count + F.fin 1 := by
  simp [Acc.consume, F.isNaN]

theorem merge_count (a b : Acc) : (a.merge b).count = a.count + b.count := rfl

/-- Along `ReachableNE` runs the count is a natural number, and the only
reachable state with count 0 is the empty accumulator itself. -/
theorem reachableNE_count_nat (a : Acc) (h : ReachableNE a) :
    ∃ n : ℕ, a.count = F.fin n ∧ (n = 0 → a = Acc.new) := by
  induction h with
  | new => exact ⟨0, rfl, fun _ => rfl⟩
  | consume a v _ ih =>
    rcases ih with ⟨n, hc, h0⟩
    cases v with
    | nan =>
      rw [consume_nan_eq]
      exact ⟨n, hc, h0⟩
    | fin x =>
      refine ⟨n + 1, ?_, by omega⟩
      rw [consume_count, hc, F.fin_add_fin]
      congr 1
      push_cast
      ring
  | merge a b _ _ hne iha ihb =>
    rcases iha with ⟨n1, hc1, h01⟩
    rcases ihb with ⟨n2, hc2, h02⟩
    refine ⟨n1 + n2, ?_, ?_⟩
    · rw [merge_count, hc1, hc2, F.fin_add_fin]
      congr 1
      push_cast
      ring
    · intro h0
      exfalso
      apply hne
      have hn1 : n1 = 0 := by omega
      have hn2 : n2 = 0 := by omega
      subst hn1
      subst hn2
      simp only [Nat.cast_zero] at hc1 hc2
      exact ⟨hc1, hc2⟩

/-- The empty accumulator has NaN uncertainty: the radicand is `0/0`. -/
theorem uncertainty_new : Acc.new.uncertainty = RF.nan := by
  show ((Acc.new.mean2 - Acc.new.mean.powi 2) / Acc.new.count).toRF.sqrt = RF.nan
  have : (Acc.new.mean2 - Acc.new.mean.powi 2) / Acc.new.count = F.nan := by
    show (F.fin 0 - (F.fin 0).powi 2) / F.fin 0 = F.nan
    rw [show (F.fin 0).powi 2 = F.fin 0 by norm_num [F.powi], F.fin_sub_fin]
    norm_num [F.fin_div_zero]
  rw [this]
  rfl

end Accumulate

/-!
## Driver-loop lemmas
-/

namespace Simulation

theorem panicsAt_none (e : ℕ) : panicsAt none e = false := rfl

/-- Any event a cycle reports is the fixed flush interval the loop was
given (or no event, when the timer did not fire). -/
theorem loopCycle_event (fi : ℕ) (maxE : Option ℕ)
    (mf : MeasureRs.Measures → MeasureRs.Measures) (st : SimState)
    (inp : CycleInput) (st1 : SimState) (ev : Option ℕ)
    (h : loopCycle fi maxE mf st inp = some (st1, ev)) :
    ev = some fi ∨ ev = none := by
  simp only [loopCycle] at h
  split at h
  · split at h
    · exact absurd h (by simp)
    · simp only [Option.some.injEq, Prod.mk.injEq] at h
      exact Or.inl h.2.symm
  · simp only [Option.some.injEq, Prod.mk.injEq] at h
    exact Or.inr h.2.symm

/-- Every flush-interval threshold recorded along a run equals the
parameters' fixed `flush_interval`: the loop never resamples it. -/
theorem runLoop_events (fi : ℕ) (maxE : Option ℕ)
    (mf : MeasureRs.Measures → MeasureRs.Measures) :
    ∀ (inputs : List CycleInput) (st st' : SimState) (evs : List ℕ),
      runLoop fi maxE mf st inputs = some (st', evs) → ∀ e ∈ evs, e = fi := by
  intro inputs
  induction inputs with
  | nil =>
    intro st st' evs h e he
    simp only [runLoop, Option.some.injEq, Prod.mk.injEq] at h
    rw [← h.2] at he
    simp at he
  | cons inp rest ih =>
    intro st st' evs h e he
    simp only [runLoop] at h
    cases hcy : loopCycle fi maxE mf st inp with
    | none => rw [hcy] at h; simp at h
    | some pr =>
      rcases pr with ⟨st1, ev⟩
      rw [hcy] at h
      simp only [Option.map_eq_some'] at h
      rcases h with ⟨⟨st2, evs2⟩, hrec, heq⟩
      simp only [Prod.mk.injEq] at heq
      rw [← heq.2] at he
      rcases List.mem_append.mp he with h1 | h2
      · rcases loopCycle_event fi maxE mf st inp st1 ev hcy with hev | hev <;>
          subst hev
        · simpa using h1
        · simp at h1
      · exact ih st1 st2 evs2 hrec e h2

/-- With no configured maximum, the loop never panics. -/
theorem runLoop_no_max_total (fi : ℕ)
    (mf : MeasureRs.Measures → MeasureRs.Measures) :
    ∀ (inputs : List CycleInput) (st : SimState),
      runLoop fi none mf st inputs ≠ none := by
  intro inputs
  induction inputs with
  | nil => intro st h; simp [runLoop] at h
  | cons inp rest ih =>
    intro st h
    simp only [runLoop] at h
    cases hcy : loopCycle fi none mf st inp with
    | none =>
      simp only [loopCycle] at hcy
      split at hcy
      · rw [panicsAt_none] at hcy
        simp at hcy
      · simp at hcy
    | some pr =>
      rcases pr with ⟨st1, ev⟩
      rw [hcy] at h
      simp only [Option.map_eq_none'] at h
      exact ih st1 h

/-- One failing export cycle: the counter goes from `e` to `e + 1`, the
measures pass through untouched, and the loop panics exactly when `e + 1`
has reached the maximum `m`. -/
theorem loopCycle_fail (fi m : ℕ)
    (mf : MeasureRs.Measures → MeasureRs.Measures)
    (ms : MeasureRs.Measures) (e : ℕ) :
    loopCycle fi (some m) mf { measures := ms, export_errors_in_row := e }
        { elapsed := fi, exportOk := false } =
      if m ≤ e + 1 then none
      else some ({ measures := mf ms, export_errors_in_row := e + 1 },
                 some fi) := by
  rw [loopCycle]
  simp [exportPhase, panicsAt]

/-- A run of `n` consecutive failing export cycles starting at counter `e`
panics somewhere iff the counter reaches the maximum along the way. -/
theorem runLoop_replicate_fail (fi m : ℕ)
    (mf : MeasureRs.Measures → MeasureRs.Measures) :
    ∀ (n : ℕ) (ms : MeasureRs.Measures) (e : ℕ),
      (runLoop fi (some m) mf { measures := ms, export_errors_in_row := e }
          (List.replicate n { elapsed := fi, exportOk := false }) = none ↔
        1 ≤ n ∧ m ≤ e + n) := by
  intro n
  induction n with
  | zero =>
    intro ms e
    simp [runLoop]
  | succ n ih =>
    intro ms e
    rw [List.replicate_succ]
    simp only [runLoop]
    rw [loopCycle_fail]
    by_cases hm : m ≤ e + 1
    · simp only [hm, if_true]
      constructor
      · intro _; omega
      · intro _; trivial
    · simp only [hm, if_false]
      rw [Option.map_eq_none']
      rw [ih (mf ms) (e + 1)]
      omega

end Simulation

/-!
## Claims
-/

/-- Claim C2.  The claim says `consume` on a NaN value is a no-op for every
accumulator state.  That is true of the `accumulate.rs` accumulator (second
conjunct: the `is_nan` early return fires before any state is touched), but
false of the copy of `Acc` inside `measure.rs` — the one the `Measure`
struct actually owns: there `consume(NaN)` unconditionally increments
`count` and drives `mean` and `mean2` to NaN (first conjunct, for every
starting state).  This theorem records both behaviours; the claim holds
only for the `accumulate.rs` version. -/
theorem C2_consume_nan_behavior (a : MeasureRs.Acc) (b : Accumulate.Acc) :
    a.consume F.nan =
      { count := a.count + F.fin 1, mean := F.nan, mean2 := F.nan } ∧
    b.consume F.nan = b := by
  constructor
  · have hp : F.powi F.nan 2 = F.nan := by decide
    simp only [MeasureRs.Acc.consume]
    congr 1
    · rw [F.nan_sub, F.nan_div, F.add_nan]
    · rw [hp, F.nan_sub, F.nan_div, F.add_nan]
  · exact Accumulate.consume_nan_eq b

/-- Claim C3.  `Measures::register` (measure.rs lines 115–121) performs no
duplicate-name check: it unconditionally appends a new measure with an
empty accumulator and returns its index — registering an already-present
name succeeds and produces a second measure with the same name, instead of
failing as the claim (and spec §4.2) requires.  First two conjuncts: the
unconditional append, for every collection and name; last conjunct: the
concrete failing input, a collection already holding a measure named `"x"`,
where `register("x")` silently yields a duplicate. -/
theorem C3_register_no_duplicate_check (ms : MeasureRs.Measures) (nm : String) :
    (ms.register nm).1.measures
        = ms.measures ++ [{ name := nm, acc := MeasureRs.Acc.new }] ∧
    (ms.register nm).2 = { val := ms.measures.length } ∧
    MeasureRs.Measures.register
        { measures := [{ name := "x", acc := MeasureRs.Acc.new }] } "x" =
      ({ measures := [{ name := "x", acc := MeasureRs.Acc.new },
                      { name := "x", acc := MeasureRs.Acc.new }] },
       { val := 1 }) :=
  ⟨rfl, rfl, rfl⟩

/-- Claim C4: in a driver-loop iteration whose export timer fires
(`flush_interval ≤ elapsed`), a successful export zeroes the
consecutive-failure counter and resets every accumulator to a fresh empty
one with names kept (last conjunct characterizes the reset), while a failed
export increments the counter by one and passes the measures — hence every
accumulator's count, mean and mean2 — through unchanged. -/
theorem C4_export_outcome_effects (fi : ℕ) (maxE : Option ℕ)
    (mf : MeasureRs.Measures → MeasureRs.Measures) (st : Simulation.SimState)
    (inp : Simulation.CycleInput) (hfire : fi ≤ inp.elapsed) :
    (inp.exportOk = true →
      Simulation.loopCycle fi maxE mf st inp =
        if Simulation.panicsAt maxE 0 then none
        else some ({ measures := (mf st.measures).reset_accs,
                     export_errors_in_row := 0 }, some fi)) ∧
    (inp.exportOk = false →
      Simulation.loopCycle fi maxE mf st inp =
        if Simulation.panicsAt maxE (st.export_errors_in_row + 1) then none
        else some ({ measures := mf st.measures,
                     export_errors_in_row := st.export_errors_in_row + 1 },
                   some fi)) ∧
    (mf st.measures).reset_accs.measures =
      (mf st.measures).measures.map
        (fun m => { name := m.name, acc := MeasureRs.Acc.new }) := by
  refine ⟨?_, ?_, ?_⟩
  · intro hok
    simp [Simulation.loopCycle, Simulation.exportPhase, hfire, hok]
  · intro hok
    simp [Simulation.loopCycle, Simulation.exportPhase, hfire, hok]
  · simp [MeasureRs.Measures.reset_accs]

/-- Witness for C4 at a concrete state: counter 3, empty collection, timer
fired; success resets to 0, failure bumps to 4. -/
theorem C4_witness :
    Simulation.loopCycle 1 none id
        { measures := MeasureRs.Measures.new, export_errors_in_row := 3 }
        { elapsed := 1, exportOk := true } =
      some ({ measures := MeasureRs.Measures.new.reset_accs,
              export_errors_in_row := 0 }, some 1) ∧
    Simulation.loopCycle 1 none id
        { measures := MeasureRs.Measures.new, export_errors_in_row := 3 }
        { elapsed := 1, exportOk := false } =
      some ({ measures := MeasureRs.Measures.new,
              export_errors_in_row := 4 }, some 1) := by
  have h1 := C4_export_outcome_effects 1 none id
    { measures := MeasureRs.Measures.new, export_errors_in_row := 3 }
    { elapsed := 1, exportOk := true } (by decide)
  have h2 := C4_export_outcome_effects 1 none id
    { measures := MeasureRs.Measures.new, export_errors_in_row := 3 }
    { elapsed := 1, exportOk := false } (by decide)
  constructor
  · have := h1.1 rfl
    simpa [Simulation.panicsAt] using this
  · have := h2.2.1 rfl
    simpa [Simulation.panicsAt] using this

/-- Claim C5: with a configured maximum `m ≥ 1` of consecutive export
failures, a fresh driver run aborts on a streak of `n` consecutive failed
exports exactly when `n` reaches `m` — the `m`-th consecutive failure is
fatal and no earlier one is; with no maximum configured, no input sequence
whatsoever makes the loop abort. -/
theorem C5_failure_cap (m : ℕ) (hm : 1 ≤ m) (fi : ℕ)
    (mf : MeasureRs.Measures → MeasureRs.Measures)
    (ms : MeasureRs.Measures) (n : ℕ) :
    (Simulation.runLoop fi (some m) mf
        { measures := ms, export_errors_in_row := 0 }
        (List.replicate n { elapsed := fi, exportOk := false }) = none ↔
      m ≤ n) ∧
    ∀ (st : Simulation.SimState) (inputs : List Simulation.CycleInput),
      Simulation.runLoop fi none mf st inputs ≠ none := by
  constructor
  · rw [Simulation.runLoop_replicate_fail]
    omega
  · exact fun st inputs => Simulation.runLoop_no_max_total fi mf inputs st

/-- Witness for C5: with maximum 2, two consecutive failed exports abort
the run, and with no maximum a failing export cycle does not. -/
theorem C5_witness :
    (Simulation.runLoop 1 (some 2) id
        { measures := MeasureRs.Measures.new, export_errors_in_row := 0 }
        (List.replicate 2 { elapsed := 1, exportOk := false }) = none ↔
      2 ≤ 2) ∧
    Simulation.runLoop 1 none id
        { measures := MeasureRs.Measures.new, export_errors_in_row := 0 }
        [{ elapsed := 1, exportOk := false }] ≠ none := by
  have h := C5_failure_cap 2 (by decide) 1 id MeasureRs.Measures.new 2
  exact ⟨h.1, h.2 _ _⟩

/-- Claim C6: consuming any nonempty list of finite values into an empty
`accumulate.rs` accumulator, in any order, makes `value()` the arithmetic
mean and `uncertainty()` the square root of `(mean2 − mean²)/count` with
`mean`/`mean2` the replay averages — the sample standard deviation divided
by `√n` — exactly, in the rational idealization of `f64`. -/
theorem C6_value_mean_uncertainty (vs : List ℚ) (h : vs ≠ []) :
    (Accumulate.fromListQ vs).num_of_samples = F.fin vs.length ∧
    (Accumulate.fromListQ vs).value = F.fin (vs.sum / vs.length) ∧
    (Accumulate.fromListQ vs).uncertainty =
      RF.fin (Real.sqrt
        (((sumSq vs / vs.length - (vs.sum / vs.length) ^ 2) / vs.length : ℚ))) ∧
    ∀ ws : List ℚ, vs.Perm ws →
      Accumulate.fromListQ ws = Accumulate.fromListQ vs := by
  have hn : (0 : ℚ) < vs.length := by exact_mod_cast List.length_pos.mpr h
  have hfe := Accumulate.fromListQ_eq vs h
  refine ⟨?_, ?_, ?_, ?_⟩
  · rw [Accumulate.Acc.num_of_samples, hfe]
  · rw [Accumulate.Acc.value, hfe]
  · rw [Accumulate.Acc.uncertainty, hfe]
    have hrad : 0 ≤ (sumSq vs / vs.length - (vs.sum / vs.length) ^ 2) /
        (vs.length : ℚ) :=
      div_nonneg (Accumulate.variance_nonneg vs h) (le_of_lt hn)
    show ((F.fin (sumSq vs / vs.length) -
        (F.fin (vs.sum / vs.length)).powi 2) / F.fin vs.length).toRF.sqrt = _
    rw [show (F.fin (vs.sum / vs.length)).powi 2 =
          F.fin ((vs.sum / vs.length) ^ 2) from rfl,
        F.fin_sub_fin, F.fin_div_fin _ _ hn.ne']
    show RF.sqrt (RF.fin _) = _
    rw [RF.sqrt, if_neg (not_lt.mpr (by exact_mod_cast hrad))]
  · intro ws hperm
    have hws : ws ≠ [] := by
      intro hw
      subst hw
      have hl := hperm.length_eq
      rw [List.length_nil] at hl
      have := List.length_pos.mpr h
      omega
    rw [Accumulate.fromListQ_eq ws hws, hfe, hperm.length_eq,
      hperm.sum_eq, show sumSq vs = sumSq ws from (hperm.map (fun v => v ^ 2)).sum_eq]

/-- Witness for C6: the list `[1, 3]` has mean 2 and uncertainty
`√((5 − 4)/2) = √(1/2)`. -/
theorem C6_witness :
    (([1, 3] : List ℚ) ≠ []) ∧
    (Accumulate.fromListQ [1, 3]).value = F.fin 2 ∧
    (Accumulate.fromListQ [1, 3]).uncertainty =
      RF.fin (Real.sqrt (1 / 2)) := by
  have hne : ([1, 3] : List ℚ) ≠ [] := by simp
  have h := C6_value_mean_uncertainty [1, 3] hne
  refine ⟨hne, ?_, ?_⟩
  · rw [h.2.1]
    norm_num
  · rw [h.2.2.1]
    norm_num [sumSq]

/-- Claim C7 (amended to nonempty sample lists): `merge` of replay-built
accumulators is associative, commutative, equals replaying the
concatenation, sums the counts, makes the merged mean the count-weighted
average of the two means, and — in any association and order — agrees with
a single accumulator fed all values. -/
theorem C7_merge_algebra (xs ys zs : List ℚ)
    (hx : xs ≠ []) (hy : ys ≠ []) (hz : zs ≠ []) :
    Accumulate.Acc.merge (Accumulate.fromListQ xs)
        (Accumulate.Acc.merge (Accumulate.fromListQ ys)
          (Accumulate.fromListQ zs)) =
      Accumulate.Acc.merge
        (Accumulate.Acc.merge (Accumulate.fromListQ xs)
          (Accumulate.fromListQ ys)) (Accumulate.fromListQ zs) ∧
    Accumulate.Acc.merge (Accumulate.fromListQ xs) (Accumulate.fromListQ ys) =
      Accumulate.Acc.merge (Accumulate.fromListQ ys) (Accumulate.fromListQ xs) ∧
    Accumulate.Acc.merge (Accumulate.fromListQ xs) (Accumulate.fromListQ ys) =
      Accumulate.fromListQ (xs ++ ys) ∧
    (Accumulate.Acc.merge (Accumulate.fromListQ xs)
        (Accumulate.fromListQ ys)).num_of_samples =
      F.fin ((xs.length : ℚ) + (ys.length : ℚ)) ∧
    (Accumulate.Acc.merge (Accumulate.fromListQ xs)
        (Accumulate.fromListQ ys)).value =
      F.fin (((xs.length : ℚ) * (xs.sum / xs.length) +
              (ys.length : ℚ) * (ys.sum / ys.length)) /
             ((xs.length : ℚ) + (ys.length : ℚ))) ∧
    ∀ ws : List ℚ, (xs ++ ys ++ zs).Perm ws →
      Accumulate.fromListQ ws =
        Accumulate.Acc.merge (Accumulate.fromListQ xs)
          (Accumulate.Acc.merge (Accumulate.fromListQ ys)
            (Accumulate.fromListQ zs)) := by
  have hx1 : (0 : ℚ) < xs.length := by exact_mod_cast List.length_pos.mpr hx
  have hy1 : (0 : ℚ) < ys.length := by exact_mod_cast List.length_pos.mpr hy
  have hAB := Accumulate.merge_fromListQ xs ys (Or.inl hx)
  have hassoc :
      Accumulate.Acc.merge (Accumulate.fromListQ xs)
        (Accumulate.Acc.merge (Accumulate.fromListQ ys)
          (Accumulate.fromListQ zs)) =
      Accumulate.fromListQ (xs ++ ys ++ zs) := by
    rw [Accumulate.merge_fromListQ ys zs (Or.inl hy),
      Accumulate.merge_fromListQ xs (ys ++ zs) (Or.inl hx),
      ← List.append_assoc]
  refine ⟨?_, ?_, hAB, ?_, ?_, ?_⟩
  · rw [hassoc, hAB, Accumulate.merge_fromListQ (xs ++ ys) zs
      (Or.inl (by simp [hx]))]
  · rw [hAB, Accumulate.merge_fromListQ ys xs (Or.inl hy),
      Accumulate.fromListQ_eq (xs ++ ys) (by simp [hx]),
      Accumulate.fromListQ_eq (ys ++ xs) (by simp [hy])]
    have hsum : (xs ++ ys).sum = (ys ++ xs).sum := by
      simp [List.sum_append]
      ring
    have hlen : (xs ++ ys).length = (ys ++ xs).length := by
      simp [List.length_append]
      ring
    have hss : sumSq (xs ++ ys) = sumSq (ys ++ xs) := by
      simp [sumSq, List.map_append, List.sum_append]
      ring
    rw [hsum, hlen, hss]
  · rw [hAB, Accumulate.fromListQ_eq (xs ++ ys) (by simp [hx]),
      Accumulate.Acc.num_of_samples]
    congr 1
    push_cast [List.length_append]
    ring
  · rw [hAB, Accumulate.fromListQ_eq (xs ++ ys) (by simp [hx]),
      Accumulate.Acc.value]
    congr 1
    rw [List.sum_append]
    push_cast [List.length_append]
    field_simp
    try ring
  · intro ws hperm
    have hws : ws ≠ [] := by
      intro hw
      subst hw
      have hl := hperm.length_eq
      rw [List.length_nil, List.length_append, List.length_append] at hl
      have := List.length_pos.mpr hx
      omega
    rw [hassoc, Accumulate.fromListQ_eq ws hws,
      Accumulate.fromListQ_eq (xs ++ ys ++ zs) (by simp [hx]),
      hperm.length_eq, hperm.sum_eq,
      show sumSq (xs ++ ys ++ zs) = sumSq ws from
        (hperm.map (fun v => v ^ 2)).sum_eq]

/-- Witness for C7 at `[1]`, `[2]`, `[3]`: associativity holds and the
merge of `[1]` with `[2]` equals replaying `[1, 2]`. -/
theorem C7_witness :
    (([1] : List ℚ) ≠ []) ∧
    Accumulate.Acc.merge (Accumulate.fromListQ [1])
        (Accumulate.Acc.merge (Accumulate.fromListQ [2])
          (Accumulate.fromListQ [3])) =
      Accumulate.Acc.merge
        (Accumulate.Acc.merge (Accumulate.fromListQ [1])
          (Accumulate.fromListQ [2])) (Accumulate.fromListQ [3]) ∧
    Accumulate.Acc.merge (Accumulate.fromListQ [1]) (Accumulate.fromListQ [2]) =
      Accumulate.fromListQ [1, 2] := by
  have h := C7_merge_algebra [1] [2] [3] (by simp) (by simp) (by simp)
  exact ⟨by simp, h.1, h.2.2.1⟩

/-- Evaluating `merge(new, new)`: the division `0/0` is NaN and poisons
both means, while the count stays 0. -/
theorem merge_new_new_eq :
    Accumulate.Acc.merge Accumulate.Acc.new Accumulate.Acc.new =
      { count := F.fin 0, mean := F.nan, mean2 := F.nan } := by
  simp only [Accumulate.Acc.merge, Accumulate.Acc.new]
  norm_num [F.fin_add_fin, F.fin_div_zero, F.mul_nan, F.sub_nan, F.nan_add]

/-- Counterexample to Claim C8 as stated: `merge(new, new)` is reachable
from `new()` by the claim's own operation set, its count is 0, yet its mean
— and hence `value()` — is NaN rather than 0, because the merge computes
`0/0`. -/
theorem C8_counterexample :
    Accumulate.ReachableClaim
      (Accumulate.Acc.merge Accumulate.Acc.new Accumulate.Acc.new) ∧
    (Accumulate.Acc.merge Accumulate.Acc.new Accumulate.Acc.new).count =
      F.fin 0 ∧
    (Accumulate.Acc.merge Accumulate.Acc.new Accumulate.Acc.new).value ≠
      F.fin 0 ∧
    (Accumulate.Acc.merge Accumulate.Acc.new Accumulate.Acc.new).mean =
      F.nan := by
  refine ⟨Accumulate.ReachableClaim.merge _ _ Accumulate.ReachableClaim.new
    Accumulate.ReachableClaim.new, ?_, ?_, ?_⟩
  · rw [merge_new_new_eq]
  · rw [Accumulate.Acc.value, merge_new_new_eq]
    simp
  · rw [merge_new_new_eq]

/-- Claim C8 (amended: merges never combine two empty accumulators): every
reachable state with count 0 is the empty accumulator, so its `value()` is
0 and its `uncertainty()` is NaN (the radicand is `0/0`). -/
theorem C8_empty_invariant (a : Accumulate.Acc)
    (h : Accumulate.ReachableNE a) (hc : a.count = F.fin 0) :
    a.value = F.fin 0 ∧ a.uncertainty = RF.nan := by
  rcases Accumulate.reachableNE_count_nat a h with ⟨n, hcn, h0⟩
  have hn : n = 0 := by
    have h1 : F.fin (n : ℚ) = F.fin 0 := hcn.symm.trans hc
    have h2 : ((n : ℚ)) = 0 := by injection h1
    exact_mod_cast h2
  have ha : a = Accumulate.Acc.new := h0 hn
  subst ha
  exact ⟨rfl, Accumulate.uncertainty_new⟩

/-- Witness for C8: the empty accumulator itself. -/
theorem C8_witness :
    Accumulate.ReachableNE Accumulate.Acc.new ∧
    Accumulate.Acc.new.count = F.fin 0 ∧
    (Accumulate.Acc.new.value = F.fin 0 ∧
     Accumulate.Acc.new.uncertainty = RF.nan) :=
  ⟨Accumulate.ReachableNE.new, rfl,
    C8_empty_invariant _ Accumulate.ReachableNE.new rfl⟩

/-!
## Startup interval lemmas
-/

namespace Startup

theorem sampleUniformInclusive_mem (lo hi u : ℕ) (h : lo ≤ hi) :
    lo ≤ sampleUniformInclusive lo hi u ∧
    sampleUniformInclusive lo hi u ≤ hi := by
  unfold sampleUniformInclusive
  have hm : u % (hi + 1 - lo) < hi + 1 - lo := Nat.mod_lt _ (by omega)
  omega

/-- `round` (for non-negative arguments) lands within a half unit. -/
theorem roundToNat_bounds (q : ℚ) (hq : 0 ≤ q) :
    q - 1 / 2 ≤ (roundToNat q : ℚ) ∧ (roundToNat q : ℚ) ≤ q + 1 / 2 := by
  unfold roundToNat
  have h0 : 0 ≤ ⌊q + 1 / 2⌋ := Int.floor_nonneg.mpr (by linarith)
  have hcast : ((⌊q + 1 / 2⌋.toNat : ℕ) : ℚ) = ((⌊q + 1 / 2⌋ : ℤ) : ℚ) := by
    exact_mod_cast congrArg Int.cast (Int.toNat_of_nonneg h0)
  rw [hcast]
  constructor
  · have h1 : (q + 1 / 2) - 1 < ((⌊q + 1 / 2⌋ : ℤ) : ℚ) := Int.sub_one_lt_floor _
    linarith
  · have h2 : ((⌊q + 1 / 2⌋ : ℤ) : ℚ) ≤ q + 1 / 2 := Int.floor_le _
    linarith

theorem roundToNat_natCast (n : ℕ) : roundToNat (n : ℚ) = n := by
  unfold roundToNat
  have hfl : ⌊(n : ℚ) + 1 / 2⌋ = (n : ℤ) := by
    rw [Int.floor_eq_iff]
    constructor
    · push_cast; linarith
    · push_cast; linarith
  rw [hfl]
  exact Int.toNat_natCast n

theorem flush_interval_min_half : flush_interval_min 10 (1 / 2) = 5 := by
  rw [flush_interval_min, roundToNat]
  norm_num
  decide

theorem flush_interval_max_half : flush_interval_max 10 (1 / 2) = 15 := by
  rw [flush_interval_max, roundToNat]
  norm_num
  decide

theorem construct_flush_interval_half (u : ℕ) :
    construct_flush_interval 10 (1 / 2) u = some (5 + u % 11) := by
  rw [construct_flush_interval, if_neg (by norm_num), flush_interval_min_half,
    flush_interval_max_half, if_neg (by norm_num), sampleUniformInclusive]

end Startup

/-- Claim C9 (amended for rounding): every drawn flush interval lies in
`[flush_interval_min, flush_interval_max]` — that is, within a half time
unit of the nominal bounds `T·(1−r)` and `T·(1+r)` — and is never below 1;
with `r = 0` (and `T ≥ 1`) it equals exactly `T`; with `T = 10`, `r = 1/2`
it lies in `[5, 15]`.  As literally stated (inside `[T(1−r), T(1+r)]`) the
claim fails by the rounding half-unit; see the counterexample. -/
theorem C9_interval_range (T : ℕ) (r : ℚ) (u i : ℕ)
    (hT : 1 ≤ T) (hr0 : 0 ≤ r) (hr1 : r < 1)
    (hi : Startup.construct_flush_interval T r u = some i) :
    1 ≤ i ∧
    Startup.flush_interval_min T r ≤ i ∧
    i ≤ Startup.flush_interval_max T r ∧
    (T : ℚ) * (1 - r) - 1 / 2 ≤ (i : ℚ) ∧
    (i : ℚ) ≤ (T : ℚ) * (1 + r) + 1 / 2 ∧
    (r = 0 → i = T) ∧
    (T = 10 → r = 1 / 2 → 5 ≤ i ∧ i ≤ 15) := by
  rw [Startup.construct_flush_interval,
    if_neg (by push_neg; exact ⟨hr0, hr1⟩)] at hi
  by_cases hlt : Startup.flush_interval_max T r < Startup.flush_interval_min T r
  · rw [if_pos hlt] at hi
    cases hi
  · rw [if_neg hlt] at hi
    injection hi with hkey
    subst hkey
    have hb := Startup.sampleUniformInclusive_mem (Startup.flush_interval_min T r)
      (Startup.flush_interval_max T r) u (not_lt.mp hlt)
    have hq1 : (0 : ℚ) ≤ (T : ℚ) * (1 - r) :=
      mul_nonneg (Nat.cast_nonneg T) (by linarith)
    have hq2 : (0 : ℚ) ≤ (T : ℚ) * (1 + r) :=
      mul_nonneg (Nat.cast_nonneg T) (by linarith)
    have hround1 := Startup.roundToNat_bounds ((T : ℚ) * (1 - r)) hq1
    have hround2 := Startup.roundToNat_bounds ((T : ℚ) * (1 + r)) hq2
    refine ⟨le_trans (Nat.le_max_left 1 _) hb.1, hb.1, hb.2, ?_, ?_, ?_, ?_⟩
    · have h1 : Startup.roundToNat ((T : ℚ) * (1 - r)) ≤
          Startup.flush_interval_min T r := Nat.le_max_right _ _
      have h3 : ((Startup.roundToNat ((T : ℚ) * (1 - r)) : ℕ) : ℚ) ≤
          ((Startup.flush_interval_min T r : ℕ) : ℚ) := by exact_mod_cast h1
      have h4 : ((Startup.flush_interval_min T r : ℕ) : ℚ) ≤
          ((Startup.sampleUniformInclusive (Startup.flush_interval_min T r)
            (Startup.flush_interval_max T r) u : ℕ) : ℚ) := by
        exact_mod_cast hb.1
      linarith [hround1.1]
    · have h1 : ((Startup.sampleUniformInclusive (Startup.flush_interval_min T r)
          (Startup.flush_interval_max T r) u : ℕ) : ℚ) ≤
          ((Startup.flush_interval_max T r : ℕ) : ℚ) := by
        exact_mod_cast hb.2
      have h5 : ((Startup.flush_interval_max T r : ℕ) : ℚ) =
          ((Startup.roundToNat ((T : ℚ) * (1 + r)) : ℕ) : ℚ) := by
        rw [Startup.flush_interval_max]
      rw [h5] at h1
      linarith [hround2.2]
    · intro hr
      subst hr
      have e1 : (T : ℚ) * (1 - 0) = ((T : ℕ) : ℚ) := by ring
      have e2 : (T : ℚ) * (1 + 0) = ((T : ℕ) : ℚ) := by ring
      have hminT : Startup.flush_interval_min T 0 = T := by
        rw [Startup.flush_interval_min, e1, Startup.roundToNat_natCast]
        exact Nat.max_eq_right hT
      have hmaxT : Startup.flush_interval_max T 0 = T := by
        rw [Startup.flush_interval_max, e2, Startup.roundToNat_natCast]
      rw [hminT, hmaxT] at hb ⊢
      omega
    · intro hT10 hrh
      subst hT10
      subst hrh
      rw [Startup.flush_interval_min_half, Startup.flush_interval_max_half]
        at hb ⊢
      omega

/-- Witness for C9: with base interval 10, randomization 1/2 and entropy 3
the drawn interval is 8, inside `[5, 15]`. -/
theorem C9_witness :
    (1 ≤ 8 ∧
     Startup.flush_interval_min 10 (1 / 2) ≤ 8 ∧
     8 ≤ Startup.flush_interval_max 10 (1 / 2) ∧
     (10 : ℚ) * (1 - 1 / 2) - 1 / 2 ≤ (8 : ℚ) ∧
     ((8 : ℕ) : ℚ) ≤ (10 : ℚ) * (1 + 1 / 2) + 1 / 2) ∧
    Startup.construct_flush_interval 10 (1 / 2) 3 = some 8 := by
  have hc : Startup.construct_flush_interval 10 (1 / 2) 3 = some 8 := by
    rw [Startup.construct_flush_interval_half]
  have h := C9_interval_range 10 (1 / 2) 3 8 (by norm_num) (by norm_num)
    (by norm_num) hc
  exact ⟨⟨h.1, h.2.1, h.2.2.1, h.2.2.2.1, h.2.2.2.2.1⟩, hc⟩

/-- Counterexample to Claim C9 as literally stated: with base interval
`T = 10` and randomization `r = 46/100 ∈ [0, 1)`, the support of the drawn
interval is `[5, 15]` after rounding, and both endpoints are actually drawn
(entropy 10 and 0 respectively) yet fall outside `[T·(1−r), T·(1+r)] =
[5.4, 14.6]`: `15 > 14.6` and `5 < 5.4`. -/
theorem C9_counterexample :
    ((0 : ℚ) ≤ 46 / 100 ∧ (46 / 100 : ℚ) < 1) ∧
    Startup.construct_flush_interval 10 (46 / 100) 10 = some 15 ∧
    ¬((15 : ℚ) ≤ (10 : ℚ) * (1 + 46 / 100)) ∧
    Startup.construct_flush_interval 10 (46 / 100) 0 = some 5 ∧
    ¬((10 : ℚ) * (1 - 46 / 100) ≤ (5 : ℚ)) := by
  have hmin : Startup.flush_interval_min 10 (46 / 100) = 5 := by
    rw [Startup.flush_interval_min, Startup.roundToNat]
    norm_num
    decide
  have hmax : Startup.flush_interval_max 10 (46 / 100) = 15 := by
    rw [Startup.flush_interval_max, Startup.roundToNat]
    norm_num
    decide
  refine ⟨⟨by norm_num, by norm_num⟩, ?_, by norm_num, ?_, by norm_num⟩
  · rw [Startup.construct_flush_interval, if_neg (by norm_num), hmin, hmax,
      if_neg (by norm_num), Startup.sampleUniformInclusive]
  · rw [Startup.construct_flush_interval, if_neg (by norm_num), hmin, hmax,
      if_neg (by norm_num), Startup.sampleUniformInclusive]

/-- Claim C1 (amended): the flush interval is sampled once, at startup, in
`construct_parameters` — a single uniform draw from
`[flush_interval_min, flush_interval_max]` consuming the entropy `u` — and
the driver then uses that same fixed interval as the export-cycle threshold
of every cycle of `run`; the loop never resamples it. -/
theorem C1_interval_fixed_at_startup (T : ℕ) (r : ℚ) (u i : ℕ)
    (maxE : Option ℕ) (mf : MeasureRs.Measures → MeasureRs.Measures)
    (st st' : Simulation.SimState) (inputs : List Simulation.CycleInput)
    (evs : List ℕ)
    (hc : Startup.construct_flush_interval T r u = some i)
    (hrun : Simulation.runLoop i maxE mf st inputs = some (st', evs)) :
    i = Startup.sampleUniformInclusive (Startup.flush_interval_min T r)
          (Startup.flush_interval_max T r) u ∧
    ∀ e ∈ evs, e = i := by
  constructor
  · rw [Startup.construct_flush_interval] at hc
    split at hc
    · cases hc
    · split at hc
      · cases hc
      · injection hc with h
        exact h.symm
  · exact Simulation.runLoop_events i maxE mf inputs st st' evs hrun

/-- Witness for C1: a startup draw of entropy 2 at base interval 10,
randomization 1/2 yields the fixed interval 7, and a two-export-cycle run
under that interval reports threshold 7 in both cycles. -/
theorem C1_witness :
    (7 : ℕ) = Startup.sampleUniformInclusive
        (Startup.flush_interval_min 10 (1 / 2))
        (Startup.flush_interval_max 10 (1 / 2)) 2 ∧
    ∀ e ∈ ([7, 7] : List ℕ), e = 7 := by
  have hc : Startup.construct_flush_interval 10 (1 / 2) 2 = some 7 := by
    rw [Startup.construct_flush_interval_half]
  have hrun : Simulation.runLoop 7 none id
      { measures := MeasureRs.Measures.new, export_errors_in_row := 0 }
      [{ elapsed := 100, exportOk := true },
       { elapsed := 100, exportOk := true }] =
    some ({ measures := MeasureRs.Measures.new, export_errors_in_row := 0 },
          [7, 7]) := rfl
  exact C1_interval_fixed_at_startup 10 (1 / 2) 2 7 none id
    { measures := MeasureRs.Measures.new, export_errors_in_row := 0 }
    { measures := MeasureRs.Measures.new, export_errors_in_row := 0 }
    [{ elapsed := 100, exportOk := true },
     { elapsed := 100, exportOk := true }] [7, 7] hc hrun

/-- Counterexample to Claim C1 as stated: with base interval 10 and
randomization 1/2, the startup draw (entropy 2) fixes the interval at 7; a
run with two export cycles then uses threshold 7 in *both* cycles, whereas
per-cycle resampling as the spec describes it — `specResampledInterval`,
drawing afresh from the entropy stream after each export attempt — would
use 7 and then 12 on the stream `twoDrawStream`.  The code's per-cycle
thresholds `[7, 7]` differ from the resampled `[7, 12]`. -/
theorem C1_counterexample :
    Startup.construct_flush_interval 10 (1 / 2) (Startup.twoDrawStream 0) =
      some 7 ∧
    Simulation.runLoop 7 none id
        { measures := MeasureRs.Measures.new, export_errors_in_row := 0 }
        [{ elapsed := 100, exportOk := true },
         { elapsed := 100, exportOk := true }] =
      some ({ measures := MeasureRs.Measures.new, export_errors_in_row := 0 },
            [7, 7]) ∧
    Startup.specResampledInterval 10 (1 / 2) Startup.twoDrawStream 0 = 7 ∧
    Startup.specResampledInterval 10 (1 / 2) Startup.twoDrawStream 1 = 12 ∧
    ([7, 7] : List ℕ) ≠ [7, 12] := by
  refine ⟨?_, rfl, ?_, ?_, by decide⟩
  · rw [show Startup.twoDrawStream 0 = 2 from rfl,
      Startup.construct_flush_interval_half]
  · rw [Startup.specResampledInterval, Startup.flush_interval_min_half,
      Startup.flush_interval_max_half]
    decide
  · rw [Startup.specResampledInterval, Startup.flush_interval_min_half,
      Startup.flush_interval_max_half]
    decide

/-- Claim C10: the accessors `name`, `acc` and `acc_mut` index the vector
unchecked — any index at or beyond the number of registered measures panics
(modelled as `none`), any in-range index succeeds — and every handle issued
by this collection's own `register` is in range: `register` returns index
`len` while growing the length to `len + 1`, and later registrations only
grow the vector, so previously issued handles stay in range. -/
theorem C10_unchecked_indexing (ms : MeasureRs.Measures) (k : ℕ)
    (f : MeasureRs.Acc → MeasureRs.Acc) (nm : String) :
    (ms.measures.length ≤ k →
      ms.name { val := k } = none ∧ ms.acc { val := k } = none ∧
      ms.acc_mut { val := k } f = none) ∧
    (k < ms.measures.length →
      (ms.name { val := k }).isSome ∧ (ms.acc { val := k }).isSome ∧
      (ms.acc_mut { val := k } f).isSome) ∧
    (ms.register nm).2.val < (ms.register nm).1.measures.length ∧
    (ms.register nm).1.measures.length = ms.measures.length + 1 := by
  refine ⟨?_, ?_, ?_, ?_⟩
  · intro hk
    have hnone : ms.measures[k]? = none := by
      rw [List.getElem?_eq_none_iff]
      exact hk
    refine ⟨?_, ?_, ?_⟩
    · rw [MeasureRs.Measures.name, hnone]
      rfl
    · rw [MeasureRs.Measures.acc, hnone]
      rfl
    · rw [MeasureRs.Measures.acc_mut, hnone]
  · intro hk
    have hsome : ms.measures[k]? = some ms.measures[k] :=
      List.getElem?_eq_getElem hk
    refine ⟨?_, ?_, ?_⟩
    · rw [MeasureRs.Measures.name, hsome]
      rfl
    · rw [MeasureRs.Measures.acc, hsome]
      rfl
    · rw [MeasureRs.Measures.acc_mut, hsome]
      rfl
  · simp [MeasureRs.Measures.register]
  · simp [MeasureRs.Measures.register]

/-- Witness for C10: in the one-measure collection obtained by registering
`"a"`, index 1 (out of range) yields `none` for all three accessors, and
index 0 — the very handle `register` issued — succeeds. -/
theorem C10_witness :
    MeasureRs.Measures.name (MeasureRs.Measures.new.register "a").1
        { val := 1 } = none ∧
    MeasureRs.Measures.acc_mut (MeasureRs.Measures.new.register "a").1
        { val := 1 } id = none ∧
    (MeasureRs.Measures.name (MeasureRs.Measures.new.register "a").1
        { val := 0 }).isSome = true ∧
    (MeasureRs.Measures.new.register "a").2.val <
      ((MeasureRs.Measures.new.register "a").1.measures).length := by
  have h1 := C10_unchecked_indexing (MeasureRs.Measures.new.register "a").1
    1 id "b"
  have h0 := C10_unchecked_indexing (MeasureRs.Measures.new.register "a").1
    0 id "b"
  have hw := C10_unchecked_indexing MeasureRs.Measures.new 0 id "a"
  exact ⟨(h1.1 (by decide)).1, (h1.1 (by decide)).2.2,
    (h0.2.1 (by decide)).1, hw.2.2.1⟩

/-- Replaying the single sample 1. -/
theorem fromListQ_one : Accumulate.fromListQ [1] =
    { count := F.fin 1, mean := F.fin 1, mean2 := F.fin 1 } := by
  rw [Accumulate.fromListQ_eq [1] (by simp)]
  norm_num [sumSq]

/-- Merging a one-sample accumulator with the NaN-poisoned empty-empty
merge result: the NaN mean propagates while the count stays 1. -/
theorem merge_one_nan_eq :
    Accumulate.Acc.merge
        { count := F.fin 1, mean := F.fin 1, mean2 := F.fin 1 }
        { count := F.fin 0, mean := F.nan, mean2 := F.nan } =
      { count := F.fin 1, mean := F.nan, mean2 := F.nan } := by
  simp only [Accumulate.Acc.merge]
  norm_num [F.fin_add_fin, F.fin_div_fin, F.fin_mul_fin, F.fin_sub_fin,
    F.nan_mul, F.nan_sub, F.sub_nan, F.add_nan, F.nan_add]

/-- Merging a one-sample accumulator with a genuinely fresh empty
accumulator is harmless: the result is the one-sample accumulator again. -/
theorem merge_one_new_eq :
    Accumulate.Acc.merge
        { count := F.fin 1, mean := F.fin 1, mean2 := F.fin 1 }
        Accumulate.Acc.new =
      { count := F.fin 1, mean := F.fin 1, mean2 := F.fin 1 } := by
  simp only [Accumulate.Acc.merge, Accumulate.Acc.new]
  norm_num [F.fin_add_fin, F.fin_div_fin, F.fin_mul_fin, F.fin_sub_fin]

/-- Counterexample to Claim C7 as stated (value sets allowed to be empty):
with A built from `[1]` and B, C built from empty value sets,
`merge(A, merge(B, C))` has a NaN mean — merging the two empty accumulators
computes `0/0` — while `merge(merge(A, B), C)` is A itself; the two
associations differ, so associativity (and agreement with replay) fails
when empty accumulators are merged together. -/
theorem C7_counterexample :
    Accumulate.Acc.merge (Accumulate.fromListQ [1])
        (Accumulate.Acc.merge (Accumulate.fromListQ [])
          (Accumulate.fromListQ [])) =
      { count := F.fin 1, mean := F.nan, mean2 := F.nan } ∧
    Accumulate.Acc.merge
        (Accumulate.Acc.merge (Accumulate.fromListQ [1])
          (Accumulate.fromListQ []))
        (Accumulate.fromListQ []) =
      { count := F.fin 1, mean := F.fin 1, mean2 := F.fin 1 } ∧
    Accumulate.Acc.merge (Accumulate.fromListQ [1])
        (Accumulate.Acc.merge (Accumulate.fromListQ [])
          (Accumulate.fromListQ [])) ≠
      Accumulate.Acc.merge
        (Accumulate.Acc.merge (Accumulate.fromListQ [1])
          (Accumulate.fromListQ []))
        (Accumulate.fromListQ []) := by
  have hnil : Accumulate.fromListQ [] = Accumulate.Acc.new := rfl
  have hL : Accumulate.Acc.merge (Accumulate.fromListQ [1])
      (Accumulate.Acc.merge (Accumulate.fromListQ [])
        (Accumulate.fromListQ [])) =
      { count := F.fin 1, mean := F.nan, mean2 := F.nan } := by
    rw [hnil, merge_new_new_eq, fromListQ_one, merge_one_nan_eq]
  have hR : Accumulate.Acc.merge
      (Accumulate.Acc.merge (Accumulate.fromListQ [1])
        (Accumulate.fromListQ []))
      (Accumulate.fromListQ []) =
      { count := F.fin 1, mean := F.fin 1, mean2 := F.fin 1 } := by
    rw [hnil, fromListQ_one, merge_one_new_eq, merge_one_new_eq]
  refine ⟨hL, hR, ?_⟩
  rw [hL, hR]
  simp
